import Mathlib

/-!
Shallow embedding of the pairs-trading backtest implemented in the
`backtesting_page` function of `src/app.py` (lines 294-437), together with
theorems settling the specification claims about it.

Modelling conventions:
* Dates are calendar-day numbers (`Int`); `(date - entry_date).days` becomes
  integer subtraction.
* Float arithmetic is idealised as exact rational arithmetic (`ℚ`).  A float
  `NaN` cell (undefined z-score, undefined daily PnL) is modelled as `none` of
  an `Option`; every comparison against `NaN` is false in Python, which the
  `none` branches below reproduce.
* `√` on floats has no rational counterpart, so every definition that the
  source feeds through `np.sqrt` / `.std()` takes an explicit square-root
  function `sqrtQ : ℚ → ℚ` as a parameter.  No claim below depends on the
  values of `sqrtQ`: the claims concern control flow, definedness and data
  recorded before any square root is taken.
* The position is an `Int` exactly as in the source (`0`, `1`, `-1` for flat,
  long-ratio, short-ratio).
-/

namespace PairBt

/-- Calendar dates, as day numbers (`pandas` timestamps; differences in days). -/
abbrev Date := Int

/-- The `'Type'` column of a trade record: `'Long Ratio'` or `'Short Ratio'`. -/
inductive TType where
  | longRatio
  | shortRatio
deriving DecidableEq

/-- One trade record, mirroring the dict appended to `trade_history`
(src/app.py lines 341-349 and 357-365): entry fields are always set, exit
fields are `None` until the trade is closed. -/
structure Trade where
  entryDate : Date
  ttype : TType
  entryZ : ℚ
  exitDate : Option Date
  exitZ : Option ℚ
  holding : Option Int
  pnl : Option ℚ
deriving DecidableEq

/-- The mutable state threaded through the signal loop of src/app.py lines
320-391: `current_position`, `entry_z`, `entry_date`, `trade_history`, and the
per-date `'Position'` column built up so far. -/
structure BtState where
  pos : Int
  entryZ : Option ℚ
  entryDate : Option Date
  trades : List Trade
  posSeries : List Int
deriving DecidableEq

/-- State before the loop (src/app.py lines 320-326). -/
def initState : BtState :=
  { pos := 0, entryZ := none, entryDate := none, trades := [], posSeries := [] }

/-- A fresh open trade record (src/app.py lines 341-349 / 357-365). -/
def newTrade (d : Date) (ty : TType) (z : ℚ) : Trade :=
  { entryDate := d, ttype := ty, entryZ := z,
    exitDate := none, exitZ := none, holding := none, pnl := none }

/-- The backward scan `for trade in reversed(trade_history)` (src/app.py lines
379-385), expressed on the reversed list: fill the exit fields of the first
record whose `'Exit Date'` is `None`, leave the rest untouched. -/
def fillOpenRev (d : Date) (z : ℚ) (hp : Int) (p : ℚ) : List Trade → List Trade
  | [] => []
  | t :: ts =>
      if t.exitDate = none then
        { t with exitDate := some d, exitZ := some z,
                 holding := some hp, pnl := some p } :: ts
      else
        t :: fillOpenRev d z hp p ts

/-- Close the most recent open trade, as the backward scan of src/app.py lines
379-385 does. -/
def closeLast (d : Date) (z : ℚ) (hp : Int) (p : ℚ) (ts : List Trade) : List Trade :=
  (fillOpenRev d z hp p ts.reverse).reverse

/-- One iteration of the signal loop (src/app.py lines 328-390) on the row for
date `d` with z-score `oz` (`none` models a `NaN` z-score, for which every
comparison in the source is false). -/
def step (entryT exitT : ℚ) (s : BtState) (row : Date × Option ℚ) : BtState :=
  match row with
  | (d, oz) =>
    if s.pos = 0 then
      match oz with
      | some z =>
          if entryT < z then
            { pos := -1, entryZ := some z, entryDate := some d,
              trades := s.trades ++ [newTrade d .shortRatio z],
              posSeries := s.posSeries ++ [-1] }
          else if z < -entryT then
            { pos := 1, entryZ := some z, entryDate := some d,
              trades := s.trades ++ [newTrade d .longRatio z],
              posSeries := s.posSeries ++ [1] }
          else
            { s with posSeries := s.posSeries ++ [0] }
      | none => { s with posSeries := s.posSeries ++ [0] }
    else
      match oz with
      | some z =>
          if (s.pos = 1 ∧ -exitT ≤ z) ∨ (s.pos = -1 ∧ z ≤ exitT) then
            { pos := 0, entryZ := none, entryDate := none,
              trades := closeLast d z (d - s.entryDate.getD 0)
                          ((s.entryZ.getD 0 - z) * (s.pos : ℚ)) s.trades,
              posSeries := s.posSeries ++ [s.pos] }
          else
            { s with posSeries := s.posSeries ++ [s.pos] }
      | none => { s with posSeries := s.posSeries ++ [s.pos] }

/-- The whole signal loop (src/app.py lines 328-390), started from the initial
state of lines 320-326. -/
def runSignals (entryT exitT : ℚ) (rows : List (Date × Option ℚ)) : BtState :=
  rows.foldl (step entryT exitT) initState

/-- Arithmetic mean, as `pandas` `.mean()` over a column. -/
def qmean (xs : List ℚ) : ℚ := xs.sum / xs.length

/-- Sample variance (`ddof = 1`), the square of `pandas` `.std()`.  For a
singleton list the denominator is `0` and ℚ-division yields `0`, matching the
fact that the float `std` is `NaN` there (callers treat `0` as undefined). -/
def sampleVar (xs : List ℚ) : ℚ :=
  ((xs.map (fun x => (x - qmean xs) ^ 2)).sum) / ((xs.length : ℚ) - 1)

/-- Trailing window of the last `lookback` observations ending at index `i`,
as used by `pairs['Ratio'].rolling(window=lookback)` (src/app.py line 317). -/
def rollWindow (ratios : List ℚ) (lookback i : ℕ) : List ℚ :=
  (ratios.take (i + 1)).drop (i + 1 - lookback)

/-- The z-score cell at index `i` (src/app.py line 317).  `none` models the
`NaN`s produced by `rolling`: the first `lookback - 1` rows (incomplete
window), and rows whose window has zero variance (there the numerator is also
zero, so the float result is `0.0/0.0 = NaN`). -/
def zscoreAt (lookback : ℕ) (sqrtQ : ℚ → ℚ) (ratios : List ℚ) (i : ℕ) : Option ℚ :=
  if i + 1 < lookback then none
  else
    let w := rollWindow ratios lookback i
    if sampleVar w = 0 then none
    else some ((ratios.getD i 0 - qmean w) / sqrtQ (sampleVar w))

/-- The column `pairs['Position'] * pairs['Z-Score'].diff().shift(-1)` (src/app.py line
393): entry `t` is `position[t] * (z[t+1] - z[t])`, `NaN` (`none`) whenever
either z-score is `NaN` — in particular at the final date. -/
def dailyPnl (pos : List Int) (zs : List (Option ℚ)) : List (Option ℚ) :=
  (List.range pos.length).map (fun t =>
    match zs.getD t none, zs.getD (t + 1) none with
    | some a, some b => some ((pos.getD t 0 : ℚ) * (b - a))
    | _, _ => none)

/-- One step of `pandas` `cumsum()` followed by `fillna(0)` (src/app.py line
394): the running sum skips `NaN` entries, and each `NaN` cell of the
cumulative column becomes `0`. -/
def cumStep (acc : ℚ × List ℚ) (o : Option ℚ) : ℚ × List ℚ :=
  match o with
  | some v => (acc.1 + v, acc.2 ++ [acc.1 + v])
  | none => (acc.1, acc.2 ++ [0])

/-- The column `pairs['Daily PnL'].cumsum().fillna(0)` (src/app.py line 394). -/
def cumPnl (dp : List (Option ℚ)) : List ℚ :=
  (dp.foldl cumStep ((0 : ℚ), [])).2

/-- Modelled from the spec words of claim C2 only (for comparison with
`cumPnl`): the running sum of `daily_pnl` with undefined values treated as `0`
before accumulation, so every cell carries the running sum so far. -/
def cumPnlSpec (dp : List (Option ℚ)) : List ℚ :=
  (dp.foldl (fun acc o => (acc.1 + o.getD 0, acc.2 ++ [acc.1 + o.getD 0]))
    ((0 : ℚ), [])).2

/-- The filter `trades_df.dropna()` keeps a row iff no cell is null; entry cells are
always set, so the test is over the four exit-side cells (src/app.py line
398). -/
def isCompleted (t : Trade) : Bool :=
  t.exitDate.isSome && t.exitZ.isSome && t.holding.isSome && t.pnl.isSome

/-- The completed-trade ledger `trades_df = trades_df.dropna()` (src/app.py
lines 397-398). -/
def completedTrades (ts : List Trade) : List Trade :=
  ts.filter isCompleted

/-- The list of open trades in a history (`'Exit Date'` still `None`). -/
def openTrades (ts : List Trade) : List Trade :=
  ts.filter (fun t => t.exitDate.isNone)

/-- The column `trades_df['PnL %'] = trades_df['PnL'] * 10` (src/app.py line 401). -/
def pnlPcts (ts : List Trade) : List ℚ :=
  ts.map (fun t => t.pnl.getD 0 * 10)

/-- A rendered metrics cell: a finite number, the unmarked rendering of a
float `NaN`/`±inf` (`f"{x:.2f}"` prints `nan`/`inf`), or the explicit string
`"N/A"`. -/
inductive Shown where
  | val (q : ℚ)
  | nan
  | na
deriving DecidableEq

/-- The ratio `win_rate = len(trades_df[trades_df['PnL %'] > 0]) / num_trades`
(src/app.py line 416). -/
def winRate (pnls : List ℚ) : ℚ :=
  ((pnls.filter (fun p => 0 < p)).length : ℚ) / pnls.length

/-- The rendered Sharpe-ratio cell (src/app.py lines 417 and 432):
`mean / std * sqrt(252)` formatted unconditionally with `f"{...:.2f}"`.  With
fewer than two trades the sample `std` is `NaN`; with zero variance the
division yields `NaN` or `±inf`; both render as an unmarked non-number,
modelled as `Shown.nan`. -/
def sharpeShown (sqrtQ : ℚ → ℚ) (pnls : List ℚ) : Shown :=
  if pnls.length < 2 then .nan
  else if sampleVar pnls = 0 then .nan
  else .val (qmean pnls / sqrtQ (sampleVar pnls) * sqrtQ 252)

/-- The rendered per-type win-rate cell (src/app.py lines 422-423 and
433-434): `"N/A"` when that type has no trades, else the computed rate. -/
def typeWinShown (pnls : List ℚ) : Shown :=
  if pnls.length = 0 then .na else .val (winRate pnls)

/-- The performance-metrics table of src/app.py lines 414-436. -/
structure Metrics where
  totalPnl : ℚ
  numTrades : ℕ
  winRate : ℚ
  sharpe : Shown
  longWin : Shown
  shortWin : Shown
  avgHolding : ℚ
deriving DecidableEq

/-- Metrics are computed only under `if not trades_df.empty` (src/app.py line
409); with an empty completed-trade ledger the page shows a warning instead
(line 471), modelled as `none`.  `avgHolding` uses the recomputed
`(Exit Date - Entry Date).days` of lines 402-403. -/
def metricsOf (sqrtQ : ℚ → ℚ) (ts : List Trade) : Option Metrics :=
  if ts = [] then none
  else some
    { totalPnl := (pnlPcts ts).sum
      numTrades := ts.length
      winRate := winRate (pnlPcts ts)
      sharpe := sharpeShown sqrtQ (pnlPcts ts)
      longWin := typeWinShown (pnlPcts (ts.filter (fun t => t.ttype = TType.longRatio)))
      shortWin := typeWinShown (pnlPcts (ts.filter (fun t => t.ttype = TType.shortRatio)))
      avgHolding := qmean (ts.map (fun t => ((t.exitDate.getD 0 - t.entryDate : Int) : ℚ))) }

/-- The join `pd.DataFrame({stock1: df1, stock2: df2}).dropna()` (src/app.py lines
302-305): the date-aligned inner join of the two closing-price series, in the
(ascending) date order of the first series. -/
def innerJoin (A B : List (Date × ℚ)) : List (Date × ℚ × ℚ) :=
  A.filterMap (fun da => (B.lookup da.1).map (fun b => (da.1, da.2, b)))

/-- The only hard failure in the source: `if len(pairs) == 0` the page shows
"No overlapping data found" and returns with no result (src/app.py lines
307-309). -/
inductive BtError where
  | noOverlap
deriving DecidableEq

/-- Everything the backtest run builds (src/app.py lines 315-436). -/
structure BacktestResult where
  dates : List Date
  ratios : List ℚ
  zscores : List (Option ℚ)
  positions : List Int
  daily : List (Option ℚ)
  cumulative : List ℚ
  trades : List Trade
  metrics : Option Metrics
deriving DecidableEq

/-- The backtest computation of src/app.py lines 302-436, as a function of the
two already-fetched closing-price series and the scalar parameters. -/
def backtest (lookback : ℕ) (entryT exitT : ℚ) (sqrtQ : ℚ → ℚ)
    (A B : List (Date × ℚ)) : Except BtError BacktestResult :=
  let joined := innerJoin A B
  if joined.length = 0 then .error .noOverlap
  else
    let ratios := joined.map (fun r => r.2.1 / r.2.2)
    let zs := (List.range joined.length).map (zscoreAt lookback sqrtQ ratios)
    let dates := joined.map Prod.fst
    let s := runSignals entryT exitT (dates.zip zs)
    let dp := dailyPnl s.posSeries zs
    let comp := completedTrades s.trades
    .ok { dates := dates, ratios := ratios, zscores := zs,
          positions := s.posSeries, daily := dp, cumulative := cumPnl dp,
          trades := comp, metrics := metricsOf sqrtQ comp }

/-- Projection used to state run-level facts: `some` result on success. -/
def resultOf : Except BtError BacktestResult → Option BacktestResult
  | .ok r => some r
  | .error _ => none

/-- The closed version of a trade record: exit fields filled as by the
backward scan of src/app.py lines 379-385. -/
def closedWith (t : Trade) (d : Date) (z : ℚ) (hp : Int) (p : ℚ) : Trade :=
  { t with exitDate := some d, exitZ := some z, holding := some hp, pnl := some p }

/-- The cumulative column produced by `cumsum().fillna(0)` starting from a
running sum `a`: `NaN` cells become `0`, defined cells carry the running sum
of the defined entries seen so far. -/
def cumFrom (a : ℚ) : List (Option ℚ) → List ℚ
  | [] => []
  | some v :: l => (a + v) :: cumFrom (a + v) l
  | none :: l => 0 :: cumFrom a l

/-- Sum of the defined entries of an option column. -/
def definedSum (l : List (Option ℚ)) : ℚ := (l.filterMap id).sum

/-- The exit-side cells of every record in a history are set together: once
`'Exit Date'` is non-null, so are `'Exit Z-Score'`, `'Holding Period'` and
`'PnL'` (the backward scan fills all four at once). -/
def ExitSync (ts : List Trade) : Prop :=
  ∀ t ∈ ts, t.exitDate.isSome → t.exitZ.isSome ∧ t.holding.isSome ∧ t.pnl.isSome

/-- Sample ten-date closing-price series for concrete runs: closes 1..10. -/
def pxA : List (Date × ℚ) :=
  [(0, 1), (1, 2), (2, 3), (3, 4), (4, 5), (5, 6), (6, 7), (7, 8), (8, 9), (9, 10)]

/-- Sample ten-date closing-price series: constant close 1. -/
def pxB : List (Date × ℚ) :=
  [(0, 1), (1, 1), (2, 1), (3, 1), (4, 1), (5, 1), (6, 1), (7, 1), (8, 1), (9, 1)]

/-- A single completed sample trade, as produced by a short entered at
`z = 3` on date 0 and exited at `z = 1` on date 2. -/
def sampleTrade : Trade :=
  { entryDate := 0, ttype := .shortRatio, entryZ := 3, exitDate := some 2,
    exitZ := some 1, holding := some 2, pnl := some 2 }

/-- Loop invariant of the signal loop, relative to a strict upper bound `d` on
every date recorded so far: Flat means every trade is closed; a held position
means exactly the most recent trade is open; trades are strictly ordered by
entry date; and every recorded exit is strictly after its entry. -/
structure DInv (s : BtState) (d : Date) : Prop where
  flat : s.pos = 0 → ∀ t ∈ s.trades, t.exitDate.isSome
  held : s.pos ≠ 0 → ∃ ts t, s.trades = ts ++ [t] ∧ t.exitDate = none ∧
    ∀ u ∈ ts, u.exitDate.isSome
  ordered : List.Pairwise (fun a b => a.entryDate < b.entryDate) s.trades
  entriesLt : ∀ t ∈ s.trades, t.entryDate < d
  exitsOk : ∀ t ∈ s.trades, ∀ x, t.exitDate = some x → t.entryDate < x

theorem fillOpenRev_length (d : Date) (z : ℚ) (hp : Int) (p : ℚ) :
    ∀ ts : List Trade, (fillOpenRev d z hp p ts).length = ts.length := by
  intro ts
  induction ts with
  | nil => rfl
  | cons t ts ih =>
      by_cases h : t.exitDate = none <;> simp [fillOpenRev, h, ih]

theorem closeLast_length (d : Date) (z : ℚ) (hp : Int) (p : ℚ) (ts : List Trade) :
    (closeLast d z hp p ts).length = ts.length := by
  simp [closeLast, fillOpenRev_length]

theorem closeLast_concat (d : Date) (z : ℚ) (hp : Int) (p : ℚ) (ts : List Trade)
    (t : Trade) (hto : t.exitDate = none) :
    closeLast d z hp p (ts ++ [t]) = ts ++ [closedWith t d z hp p] := by
  simp [closeLast, fillOpenRev, hto, closedWith]

/-- C1: for every date with a defined z-score the per-date update follows the
state machine of the spec: from Flat, `z > entry_threshold` opens a ShortRatio
trade recording `entry_z = z` and `entry_date = date`, and `z < -entry_threshold`
opens a LongRatio trade likewise; a held LongRatio exits exactly when
`z >= -exit_threshold` and a held ShortRatio exactly when `z <= exit_threshold`,
and on exit the open trade is closed with `pnl = (entry_z - z) * position_sign`
(`+1` LongRatio, `-1` ShortRatio), `holding_period_days = date - entry_date`,
the position returns to Flat and `entry_z`/`entry_date` are cleared. -/
theorem c1_position_state_machine (entryT exitT : ℚ) (s : BtState) (d : Date) (z : ℚ) :
    (s.pos = 0 → entryT < z →
      step entryT exitT s (d, some z) =
        { pos := -1, entryZ := some z, entryDate := some d,
          trades := s.trades ++ [newTrade d .shortRatio z],
          posSeries := s.posSeries ++ [-1] }) ∧
    (s.pos = 0 → ¬ entryT < z → z < -entryT →
      step entryT exitT s (d, some z) =
        { pos := 1, entryZ := some z, entryDate := some d,
          trades := s.trades ++ [newTrade d .longRatio z],
          posSeries := s.posSeries ++ [1] }) ∧
    (s.pos = 0 → ¬ entryT < z → ¬ z < -entryT →
      step entryT exitT s (d, some z) = { s with posSeries := s.posSeries ++ [0] }) ∧
    (∀ ez ed ts t, s.pos = 1 → s.entryZ = some ez → s.entryDate = some ed →
      s.trades = ts ++ [t] → t.exitDate = none → -exitT ≤ z →
      step entryT exitT s (d, some z) =
        { pos := 0, entryZ := none, entryDate := none,
          trades := ts ++ [closedWith t d z (d - ed) ((ez - z) * 1)],
          posSeries := s.posSeries ++ [1] }) ∧
    (∀ ez ed ts t, s.pos = -1 → s.entryZ = some ez → s.entryDate = some ed →
      s.trades = ts ++ [t] → t.exitDate = none → z ≤ exitT →
      step entryT exitT s (d, some z) =
        { pos := 0, entryZ := none, entryDate := none,
          trades := ts ++ [closedWith t d z (d - ed) ((ez - z) * (-1))],
          posSeries := s.posSeries ++ [-1] }) ∧
    (s.pos = 1 → z < -exitT →
      step entryT exitT s (d, some z) = { s with posSeries := s.posSeries ++ [1] }) ∧
    (s.pos = -1 → exitT < z →
      step entryT exitT s (d, some z) = { s with posSeries := s.posSeries ++ [-1] }) := by
  refine ⟨?_, ?_, ?_, ?_, ?_, ?_, ?_⟩
  · intro hpos h
    simp [step, hpos, h]
  · intro hpos h1 h2
    simp [step, hpos, h1, h2]
  · intro hpos h1 h2
    simp [step, hpos, h1, h2]
  · intro ez ed ts t hpos hez hed htr hto hzc
    simp [step, hpos, hez, hed, hzc, htr, closeLast_concat _ _ _ _ _ _ hto]
  · intro ez ed ts t hpos hez hed htr hto hzc
    simp [step, hpos, hez, hed, hzc, htr, closeLast_concat _ _ _ _ _ _ hto]
  · intro hpos h
    have h2 : ¬ -exitT ≤ z := not_le.mpr h
    simp [step, hpos, h2]
  · intro hpos h
    have h2 : ¬ z ≤ exitT := not_le.mpr h
    simp [step, hpos, h2]

/-- Witness for C1: from Flat with `z = 3 > 2.5`, the step on date `0` opens a
ShortRatio trade and records position `-1`. -/
theorem c1_position_state_machine_witness :
    step (5/2) (3/2) initState (0, some 3) =
      { pos := -1, entryZ := some 3, entryDate := some 0,
        trades := [newTrade 0 .shortRatio 3], posSeries := [-1] } := by
  have h := (c1_position_state_machine (5/2) (3/2) initState 0 3).1 rfl (by norm_num)
  simpa [initState] using h

/-- C10: on a date processed while a position is held, the recorded per-date
position is the sign of the held (possibly just-closed) position, never Flat;
no new trade is opened on that date; and the position after the step is either
unchanged or Flat. -/
theorem c10_exit_date_records_old_position (entryT exitT : ℚ) (s : BtState)
    (d : Date) (oz : Option ℚ) (h : s.pos ≠ 0) :
    (step entryT exitT s (d, oz)).posSeries = s.posSeries ++ [s.pos] ∧
    (step entryT exitT s (d, oz)).trades.length = s.trades.length ∧
    ((step entryT exitT s (d, oz)).pos = s.pos ∨ (step entryT exitT s (d, oz)).pos = 0) := by
  cases oz with
  | none => simp [step, h]
  | some z =>
      by_cases hc : (s.pos = 1 ∧ -exitT ≤ z) ∨ (s.pos = -1 ∧ z ≤ exitT)
      · simp [step, h, hc, closeLast_length]
      · simp [step, h, hc]

/-- Witness for C10: holding a short position opened at `z = 3`, the exit at
`z = 1` on date `2` records position `-1` for that date, opens no trade, and
returns the position to Flat. -/
theorem c10_exit_date_records_old_position_witness :
    (step (5/2) (3/2)
      { pos := -1, entryZ := some 3, entryDate := some 0,
        trades := [newTrade 0 .shortRatio 3], posSeries := [-1, -1] }
      (2, some 1)).posSeries = [-1, -1, -1] := by
  have h := (c10_exit_date_records_old_position (5/2) (3/2)
    { pos := -1, entryZ := some 3, entryDate := some 0,
      trades := [newTrade 0 .shortRatio 3], posSeries := [-1, -1] } 2 (some 1)
    (by norm_num)).1
  simpa using h

theorem foldl_cumStep (dp : List (Option ℚ)) :
    ∀ (a : ℚ) (acc : List ℚ), (dp.foldl cumStep (a, acc)).2 = acc ++ cumFrom a dp := by
  induction dp with
  | nil => intro a acc; simp [cumFrom]
  | cons o l ih => cases o <;> intro a acc <;> simp [cumStep, cumFrom, ih]

theorem cumPnl_eq_cumFrom (dp : List (Option ℚ)) : cumPnl dp = cumFrom 0 dp := by
  simpa [cumPnl] using foldl_cumStep dp 0 []

theorem cumFrom_getD (dp : List (Option ℚ)) :
    ∀ (a : ℚ) (t : ℕ), t < dp.length →
      (cumFrom a dp).getD t 0 =
        (match dp.getD t none with
         | none => 0
         | some _ => a + definedSum (dp.take (t + 1))) := by
  induction dp with
  | nil => intro a t ht; simp at ht
  | cons o l ih =>
      intro a t ht
      cases o with
      | none =>
          cases t with
          | zero => simp [cumFrom, definedSum]
          | succ n =>
              have hn : n < l.length := by simpa using ht
              simpa [cumFrom, definedSum, add_assoc] using ih a n hn
      | some v =>
          cases t with
          | zero => simp [cumFrom, definedSum]
          | succ n =>
              have hn : n < l.length := by simpa using ht
              have h := ih (a + v) n hn
              cases hx : l[n]?.getD (none : Option ℚ) with
              | none => simpa [cumFrom, definedSum, hx] using h
              | some w =>
                  simp [hx] at h
                  simp [cumFrom, hx, definedSum, h, add_assoc]

/-- C2 (amended): `daily_pnl[t] = position[t] * (z[t+1] - z[t])`, undefined
(`none`) whenever either z-score is undefined and in particular at the final
date; but `cumulative_pnl[t]` equals the running sum of the defined daily
values up to `t` only when `daily_pnl[t]` is itself defined — at a date with
undefined daily PnL the cumulative cell is `0` (the `fillna(0)` runs after the
`cumsum`, not before it). -/
theorem c2_daily_and_cumulative_pnl (pos : List Int) (zs : List (Option ℚ))
    (dp : List (Option ℚ)) (t : ℕ) :
    (t < pos.length →
      (dailyPnl pos zs).getD t none =
        (match zs.getD t none, zs.getD (t + 1) none with
         | some a, some b => some ((pos.getD t 0 : ℚ) * (b - a))
         | _, _ => none)) ∧
    (zs.length = pos.length → 0 < pos.length →
      (dailyPnl pos zs).getD (pos.length - 1) none = none) ∧
    (t < dp.length →
      (cumPnl dp).getD t 0 =
        (match dp.getD t none with
         | none => 0
         | some _ => definedSum (dp.take (t + 1)))) := by
  refine ⟨?_, ?_, ?_⟩
  · intro ht
    simp [dailyPnl, List.getD_eq_getElem?_getD, List.getElem?_map, ht,
      List.getElem?_range ht]
  · intro hlen hpos
    have h1 : pos.length - 1 < pos.length := Nat.sub_lt hpos Nat.one_pos
    have hz0 : zs[pos.length - 1 + 1]? = (none : Option (Option ℚ)) := by
      apply List.getElem?_eq_none
      omega
    simp only [dailyPnl, List.getD_eq_getElem?_getD, List.getElem?_map,
      List.getElem?_range h1]
    cases hfirst : zs[pos.length - 1]?.getD none <;> simp [hz0]
  · intro ht
    rw [cumPnl_eq_cumFrom]
    simpa using cumFrom_getD dp 0 t ht

/-- Counterexample to C2 as stated: with positions `[1, 1, 0]` and z-scores
`[0, 5, NaN]` the daily PnL column is `[5, NaN, NaN]`; the code's cumulative
column is `[5, 0, 0]`, whereas the claim (undefined daily values treated as 0
before accumulation, so the cell keeps the running sum) demands `[5, 5, 5]`. -/
theorem c2_counterexample :
    dailyPnl [1, 1, 0] [some 0, some 5, none] = [some 5, none, none] ∧
    cumPnl [some 5, none, none] = [5, 0, 0] ∧
    cumPnlSpec [some 5, none, none] = [5, 5, 5] ∧
    ¬ cumPnl [some 5, none, none] = cumPnlSpec [some 5, none, none] := by
  refine ⟨?_, ?_, ?_, ?_⟩ <;>
    norm_num [dailyPnl, cumPnl, cumPnlSpec, cumStep, List.range_succ]

/-- Witness for C2 (amended): at `t = 1` of the daily column `[5, NaN, NaN]`
the cumulative cell is `0`, not the running sum `5`. -/
theorem c2_daily_and_cumulative_pnl_witness :
    (cumPnl [some 5, none, none]).getD 1 0 = 0 := by
  have h := (c2_daily_and_cumulative_pnl [1, 1, 0] [some 0, some 5, none]
    [some 5, none, none] 1).2.2 (by norm_num)
  simpa using h

theorem exitSync_fillOpenRev (d : Date) (z : ℚ) (hp : Int) (p : ℚ) :
    ∀ ts : List Trade, ExitSync ts → ExitSync (fillOpenRev d z hp p ts) := by
  intro ts
  induction ts with
  | nil => intro _; simp [fillOpenRev, ExitSync]
  | cons t ts ih =>
      intro hsync
      have hts : ExitSync ts := fun u hu => hsync u (List.mem_cons_of_mem t hu)
      have hthead := hsync t (List.mem_cons_self t ts)
      by_cases h : t.exitDate = none
      · intro u hu
        simp only [fillOpenRev, h, if_pos] at hu
        rcases List.mem_cons.mp hu with rfl | hu2
        · intro _; simp
        · exact hts u hu2
      · intro u hu
        simp only [fillOpenRev, h, if_neg, ite_false] at hu
        rcases List.mem_cons.mp hu with rfl | hu2
        · exact hthead
        · exact ih hts u hu2

theorem exitSync_closeLast (d : Date) (z : ℚ) (hp : Int) (p : ℚ) (ts : List Trade)
    (hsync : ExitSync ts) : ExitSync (closeLast d z hp p ts) := by
  have h1 : ExitSync ts.reverse := fun u hu => hsync u (List.mem_reverse.mp hu)
  have h2 := exitSync_fillOpenRev d z hp p ts.reverse h1
  intro u hu
  exact h2 u (List.mem_reverse.mp hu)

theorem exitSync_step (entryT exitT : ℚ) (s : BtState) (row : Date × Option ℚ)
    (hsync : ExitSync s.trades) : ExitSync (step entryT exitT s row).trades := by
  rcases row with ⟨d, oz⟩
  by_cases hp0 : s.pos = 0
  · cases oz with
    | none => simpa [step, hp0] using hsync
    | some z =>
        by_cases h1 : entryT < z
        · simp only [step, hp0, if_pos, h1, ite_true]
          intro u hu
          rcases List.mem_append.mp hu with hu1 | hu2
          · exact hsync u hu1
          · rcases List.mem_singleton.mp hu2 with rfl
            simp [newTrade]
        · by_cases h2 : z < -entryT
          · simp only [step, hp0, if_pos, h1, ite_false, h2, ite_true]
            intro u hu
            rcases List.mem_append.mp hu with hu1 | hu2
            · exact hsync u hu1
            · rcases List.mem_singleton.mp hu2 with rfl
              simp [newTrade]
          · simpa [step, hp0, h1, h2] using hsync
  · cases oz with
    | none => simpa [step, hp0] using hsync
    | some z =>
        by_cases hc : (s.pos = 1 ∧ -exitT ≤ z) ∨ (s.pos = -1 ∧ z ≤ exitT)
        · simp only [step, hp0, if_neg, hc, ite_true]
          exact exitSync_closeLast _ _ _ _ _ hsync
        · simpa [step, hp0, hc] using hsync

theorem exitSync_foldl (entryT exitT : ℚ) :
    ∀ (rows : List (Date × Option ℚ)) (s : BtState), ExitSync s.trades →
      ExitSync (rows.foldl (step entryT exitT) s).trades := by
  intro rows
  induction rows with
  | nil => intro s h; simpa using h
  | cons r rows ih =>
      intro s h
      exact ih (step entryT exitT s r) (exitSync_step entryT exitT s r h)

theorem exitSync_run (entryT exitT : ℚ) (rows : List (Date × Option ℚ)) :
    ExitSync (runSignals entryT exitT rows).trades := by
  apply exitSync_foldl
  intro t ht
  simp [initState] at ht

/-- C6: the reported completed-trade ledger (`trades_df.dropna()`) contains
exactly the trades whose exit fields are non-null; in particular a trade still
open at the end of the backtest is excluded. -/
theorem c6_completed_ledger (entryT exitT : ℚ) (rows : List (Date × Option ℚ)) :
    completedTrades (runSignals entryT exitT rows).trades =
      (runSignals entryT exitT rows).trades.filter (fun t => t.exitDate.isSome) := by
  have hsync := exitSync_run entryT exitT rows
  apply List.filter_congr
  intro t ht
  by_cases h : t.exitDate.isSome
  · obtain ⟨h1, h2, h3⟩ := hsync t ht h
    simp [isCompleted, h, h1, h2, h3]
  · simp [isCompleted, h]

/-- C9: the backtest is deterministic — it is a pure function of the two price
series and the scalar parameters, so equal inputs give identical results. -/
theorem c9_deterministic (lb1 lb2 : ℕ) (e1 x1 e2 x2 : ℚ) (sq1 sq2 : ℚ → ℚ)
    (A1 B1 A2 B2 : List (Date × ℚ)) (hlb : lb1 = lb2) (he : e1 = e2)
    (hx : x1 = x2) (hsq : sq1 = sq2) (hA : A1 = A2) (hB : B1 = B2) :
    backtest lb1 e1 x1 sq1 A1 B1 = backtest lb2 e2 x2 sq2 A2 B2 := by
  subst hlb he hx hsq hA hB
  rfl

/-- Witness for C9: two runs on the sample inputs coincide. -/
theorem c9_deterministic_witness :
    backtest 30 (5/2) (3/2) id pxA pxB = backtest 30 (5/2) (3/2) id pxA pxB :=
  c9_deterministic 30 30 (5/2) (3/2) (5/2) (3/2) id id pxA pxB pxA pxB
    rfl rfl rfl rfl rfl rfl

theorem step_posSeries_concat (entryT exitT : ℚ) (s : BtState) (row : Date × Option ℚ) :
    ∃ x, (step entryT exitT s row).posSeries = s.posSeries ++ [x] := by
  rcases row with ⟨d, oz⟩
  by_cases hp0 : s.pos = 0
  · cases oz with
    | none => exact ⟨0, by simp [step, hp0]⟩
    | some z =>
        by_cases h1 : entryT < z
        · exact ⟨-1, by simp [step, hp0, h1]⟩
        · by_cases h2 : z < -entryT
          · exact ⟨1, by simp [step, hp0, h1, h2]⟩
          · exact ⟨0, by simp [step, hp0, h1, h2]⟩
  · cases oz with
    | none => exact ⟨s.pos, by simp [step, hp0]⟩
    | some z =>
        by_cases hc : (s.pos = 1 ∧ -exitT ≤ z) ∨ (s.pos = -1 ∧ z ≤ exitT)
        · exact ⟨s.pos, by simp [step, hp0, hc]⟩
        · exact ⟨s.pos, by simp [step, hp0, hc]⟩

theorem foldl_posSeries_grows (entryT exitT : ℚ) :
    ∀ (rows : List (Date × Option ℚ)) (s : BtState),
      ∃ l, (rows.foldl (step entryT exitT) s).posSeries = s.posSeries ++ l ∧
        l.length = rows.length := by
  intro rows
  induction rows with
  | nil => intro s; exact ⟨[], by simp⟩
  | cons r rows ih =>
      intro s
      obtain ⟨x, hx⟩ := step_posSeries_concat entryT exitT s r
      obtain ⟨l, hl, hlen⟩ := ih (step entryT exitT s r)
      exact ⟨x :: l, by simp [hl, hx, hlen]⟩

theorem foldl_none_flat (entryT exitT : ℚ) :
    ∀ (rows : List (Date × Option ℚ)) (s : BtState), s.pos = 0 →
      (∀ r ∈ rows, r.2 = none) →
      rows.foldl (step entryT exitT) s =
        { s with posSeries := s.posSeries ++ List.replicate rows.length 0 } := by
  intro rows
  induction rows with
  | nil => intro s h0 _; simp
  | cons r rows ih =>
      intro s h0 hall
      rcases r with ⟨d, oz⟩
      have hz : oz = none := hall (d, oz) (List.mem_cons_self _ _)
      subst hz
      have hstep : step entryT exitT s (d, none) = { s with posSeries := s.posSeries ++ [0] } := by
        simp [step, h0]
      rw [List.foldl_cons, hstep]
      rw [ih _ (by simpa using h0) (fun r hr => hall r (List.mem_cons_of_mem _ hr))]
      simp [List.replicate_succ]

/-- From a successful run, the result record in terms of the pipeline pieces. -/
theorem backtest_ok_iff (lookback : ℕ) (entryT exitT : ℚ) (sqrtQ : ℚ → ℚ)
    (A B : List (Date × ℚ)) (r : BacktestResult) :
    backtest lookback entryT exitT sqrtQ A B = .ok r ↔
      (innerJoin A B).length ≠ 0 ∧
      r = (let joined := innerJoin A B
           let ratios := joined.map (fun p => p.2.1 / p.2.2)
           let zs := (List.range joined.length).map (zscoreAt lookback sqrtQ ratios)
           let dates := joined.map Prod.fst
           let s := runSignals entryT exitT (dates.zip zs)
           let dp := dailyPnl s.posSeries zs
           let comp := completedTrades s.trades
           { dates := dates, ratios := ratios, zscores := zs,
             positions := s.posSeries, daily := dp, cumulative := cumPnl dp,
             trades := comp, metrics := metricsOf sqrtQ comp }) := by
  by_cases hj : (innerJoin A B).length = 0
  · simp [backtest, hj]
  · simp only [backtest, hj, if_neg, ite_false]
    constructor
    · intro h
      refine ⟨hj, ?_⟩
      cases h
      rfl
    · intro ⟨_, h⟩
      rw [h]

/-- C8: the first `lookback - 1` rows of the joined series have undefined
(`none`) z-score; on those rows no entry is generated, so the recorded
position is Flat (`0`); and the rows are retained — the z-score and position
columns have one entry per joined date. -/
theorem c8_warmup_rows (lookback : ℕ) (entryT exitT : ℚ) (sqrtQ : ℚ → ℚ)
    (A B : List (Date × ℚ)) (r : BacktestResult)
    (h : backtest lookback entryT exitT sqrtQ A B = .ok r) :
    (∀ i, i + 1 < lookback → r.zscores.getD i none = none) ∧
    (∀ i, i + 1 < lookback → r.positions.getD i 0 = 0) ∧
    r.zscores.length = (innerJoin A B).length ∧
    r.positions.length = (innerJoin A B).length ∧
    r.dates = (innerJoin A B).map Prod.fst := by
  obtain ⟨hj, hr⟩ := (backtest_ok_iff lookback entryT exitT sqrtQ A B r).mp h
  subst hr
  simp only
  set joined := innerJoin A B with hjdef
  set n := joined.length with hndef
  set ratios := joined.map (fun p => p.2.1 / p.2.2) with hratios
  set zs := (List.range n).map (zscoreAt lookback sqrtQ ratios) with hzs
  set dates := joined.map Prod.fst with hdates
  set rows := dates.zip zs with hrows
  have hdlen : dates.length = n := by simp [hdates]
  have hzlen : zs.length = n := by simp [hzs]
  have hrowslen : rows.length = n := by
    simp [hrows, hdlen, hzlen]
  set m := lookback - 1 with hmdef
  have hznone : ∀ x ∈ zs.take m, x = (none : Option ℚ) := by
    intro x hx
    rw [hzs, ← List.map_take, List.take_range] at hx
    rcases List.mem_map.mp hx with ⟨j, hj2, rfl⟩
    have hjm : j < min m n := List.mem_range.mp hj2
    have hj1 : j + 1 < lookback := by omega
    simp [zscoreAt, hj1]
  have hrowsnone : ∀ row ∈ rows.take m, row.2 = (none : Option ℚ) := by
    intro row hrow
    have h1 : row.2 ∈ (rows.take m).map Prod.snd := List.mem_map_of_mem _ hrow
    rw [List.map_take, hrows, List.map_snd_zip _ _ (by omega)] at h1
    exact hznone _ h1
  have hfold : runSignals entryT exitT rows =
      (rows.drop m).foldl (step entryT exitT)
        ((rows.take m).foldl (step entryT exitT) initState) := by
    rw [runSignals, ← List.foldl_append, List.take_append_drop]
  have hflat := foldl_none_flat entryT exitT (rows.take m) initState rfl hrowsnone
  obtain ⟨l, hl, hllen⟩ := foldl_posSeries_grows entryT exitT (rows.drop m)
    ((rows.take m).foldl (step entryT exitT) initState)
  have hpos : (runSignals entryT exitT rows).posSeries =
      List.replicate (rows.take m).length 0 ++ l := by
    rw [hfold, hl, hflat]
    simp [initState]
  have htklen : (rows.take m).length = min m n := by simp [hrowslen]
  have hdplen : (rows.drop m).length = n - min m n := by
    simp [hrowslen]
    omega
  have hposlen : (runSignals entryT exitT rows).posSeries.length = n := by
    rw [hpos]
    simp only [List.length_append, List.length_replicate, htklen, hllen, hdplen]
    omega
  refine ⟨?_, ?_, ?_, ?_, ?_⟩
  · intro i hi
    by_cases hin : i < n
    · rw [hzs, List.getD_eq_getElem?_getD, List.getElem?_map, List.getElem?_range hin]
      simp [zscoreAt, hi]
    · rw [List.getD_eq_default]
      rw [hzlen]
      omega
  · intro i hi
    by_cases hin : i < n
    · have him : i < min m n := by omega
      rw [hpos, List.getD_append _ _ _ _ (by simp [htklen]; omega)]
      rw [List.getD_eq_getElem?_getD]
      simp [List.getElem?_replicate_of_lt (by simp [htklen]; omega : i < (rows.take m).length)]
    · rw [List.getD_eq_default]
      rw [hposlen]
      omega
  · exact hzlen
  · exact hposlen
  · trivial

theorem backtest_isOk (lookback : ℕ) (entryT exitT : ℚ) (sqrtQ : ℚ → ℚ)
    (A B : List (Date × ℚ)) (h : (innerJoin A B).length ≠ 0) :
    ∃ r, backtest lookback entryT exitT sqrtQ A B = .ok r :=
  ⟨_, (backtest_ok_iff lookback entryT exitT sqrtQ A B _).mpr ⟨h, rfl⟩⟩

/-- Witness for C8: on the ten-date sample run with `lookback = 30`, the first
recorded position is Flat. -/
theorem c8_warmup_rows_witness :
    (resultOf (backtest 30 (5/2) (3/2) id pxA pxB)).map
      (fun r => r.positions.getD 0 0) = some 0 := by
  obtain ⟨r0, hr0⟩ := backtest_isOk 30 (5/2) (3/2) id pxA pxB (by decide)
  have h := (c8_warmup_rows 30 (5/2) (3/2) id pxA pxB r0 hr0).2.1 0 (by norm_num)
  rw [hr0]
  simp only [resultOf, Option.map]
  simpa using h

/-- C3 (amended): the only data-sufficiency check in the code is that the
inner join is nonempty — the run fails (with the "no overlapping data" error)
exactly when the join has zero rows; when the join is nonempty but shorter
than `lookback`, the run still succeeds and merely produces an empty trade
ledger (every z-score is undefined), rather than an insufficient-data
error. -/
theorem c3_insufficient_data (lookback : ℕ) (entryT exitT : ℚ) (sqrtQ : ℚ → ℚ)
    (A B : List (Date × ℚ)) :
    (backtest lookback entryT exitT sqrtQ A B = .error .noOverlap ↔ innerJoin A B = []) ∧
    ((innerJoin A B).length < lookback → ∀ r,
      backtest lookback entryT exitT sqrtQ A B = .ok r → r.trades = []) := by
  constructor
  · by_cases hj : (innerJoin A B).length = 0
    · simp [backtest, hj, List.length_eq_zero.mp hj]
    · constructor
      · intro h
        simp [backtest, hj] at h
      · intro h
        rw [h] at hj
        simp at hj
  · intro hlt r hok
    obtain ⟨hj, hr⟩ := (backtest_ok_iff lookback entryT exitT sqrtQ A B r).mp hok
    subst hr
    simp only
    set joined := innerJoin A B with hjdef
    set n := joined.length with hndef
    set ratios := joined.map (fun p => p.2.1 / p.2.2) with hratios
    set zs := (List.range n).map (zscoreAt lookback sqrtQ ratios) with hzs
    set dates := joined.map Prod.fst with hdates
    set rows := dates.zip zs with hrows
    have hrowsnone : ∀ row ∈ rows, row.2 = (none : Option ℚ) := by
      intro row hrow
      have h1 : row.2 ∈ rows.map Prod.snd := List.mem_map_of_mem _ hrow
      rw [hrows, List.map_snd_zip _ _ (by simp [hdates, hzs])] at h1
      rw [hzs] at h1
      rcases List.mem_map.mp h1 with ⟨j, hj2, hfj⟩
      have hjn : j < n := List.mem_range.mp hj2
      have hj1 : j + 1 < lookback := by omega
      rw [← hfj]
      simp [zscoreAt, hj1]
    have hflat := foldl_none_flat entryT exitT rows initState rfl hrowsnone
    rw [runSignals, hflat]
    simp [initState, completedTrades]

/-- Counterexample to C3 as stated: ten overlapping dates with `lookback = 30`
do not raise an insufficient-data error — the backtest returns a result (with
an empty trade ledger). -/
theorem c3_counterexample :
    (resultOf (backtest 30 (5/2) (3/2) id pxA pxB)).isSome = true ∧
    (resultOf (backtest 30 (5/2) (3/2) id pxA pxB)).map BacktestResult.trades =
      some [] := by
  constructor <;> rfl

/-- Witness for C3 (amended): a three-date overlap with `lookback = 7`
produces a successful run with an empty ledger. -/
theorem c3_insufficient_data_witness :
    (resultOf (backtest 7 (5/2) (3/2) id [((0 : Int), (2 : ℚ)), (1, 4), (2, 6)]
      [((0 : Int), (1 : ℚ)), (1, 2), (2, 3)])).map BacktestResult.trades = some [] := by
  obtain ⟨r0, hr0⟩ := backtest_isOk 7 (5/2) (3/2) id
    [((0 : Int), (2 : ℚ)), (1, 4), (2, 6)] [((0 : Int), (1 : ℚ)), (1, 2), (2, 3)]
    (by decide)
  have h := (c3_insufficient_data 7 (5/2) (3/2) id
    [((0 : Int), (2 : ℚ)), (1, 4), (2, 6)] [((0 : Int), (1 : ℚ)), (1, 2), (2, 3)]).2
    (by decide) r0 hr0
  rw [hr0]
  simp [resultOf, h]

/-- C4 (amended): the code validates no parameters — even with
`entry_threshold <= 0` or `lookback < 2` the call is not rejected: whenever
the inner join is nonempty it returns an ordinary result (the only failure in
the code is the empty-join error). -/
theorem c4_no_parameter_validation (lookback : ℕ) (entryT exitT : ℚ)
    (sqrtQ : ℚ → ℚ) (A B : List (Date × ℚ))
    (hbad : entryT ≤ 0 ∨ lookback < 2) (hover : innerJoin A B ≠ []) :
    ∃ r, backtest lookback entryT exitT sqrtQ A B = .ok r := by
  apply backtest_isOk
  simpa [List.length_eq_zero] using hover

/-- Counterexample to C4 as stated: `entry_threshold = -1 <= 0` is not
rejected — the run on the ten-date sample succeeds. -/
theorem c4_counterexample :
    (resultOf (backtest 11 (-1) (3/2) id pxA pxB)).isSome = true := by rfl

/-- Witness for C4 (amended): with `entry_threshold = 0` the sample run
returns a result. -/
theorem c4_no_parameter_validation_witness :
    (resultOf (backtest 30 0 (3/2) id pxA pxB)).isSome = true := by
  obtain ⟨r, hr⟩ := c4_no_parameter_validation 30 0 (3/2) id pxA pxB
    (Or.inl le_rfl) (by decide)
  rw [hr]
  rfl

/-- C5 (amended): the metrics table is only rendered when the completed-trade
ledger is nonempty (with no trades a warning is shown instead, so no win rate
or Sharpe cell exists at all); the per-type win-rate cells do render `"N/A"`
exactly when that type has no trades; but the Sharpe cell renders the
unmarked float non-number (`nan`/`inf`) exactly when there are fewer than two
trades or the sample variance of `PnL %` is zero — it is never rendered as a
marked `"N/A"`. -/
theorem c5_metrics_display (sqrtQ : ℚ → ℚ) (ts : List Trade) (pnls : List ℚ) :
    (metricsOf sqrtQ ts = none ↔ ts = []) ∧
    (sharpeShown sqrtQ pnls = Shown.nan ↔ (pnls.length < 2 ∨ sampleVar pnls = 0)) ∧
    (typeWinShown pnls = Shown.na ↔ pnls = []) := by
  refine ⟨?_, ?_, ?_⟩
  · by_cases h : ts = [] <;> simp [metricsOf, h]
  · by_cases h1 : pnls.length < 2
    · simp [sharpeShown, h1]
    · by_cases h2 : sampleVar pnls = 0 <;> simp [sharpeShown, h1, h2]
  · constructor
    · intro h
      by_cases hl : pnls = []
      · exact hl
      · exfalso
        have hne : pnls.length ≠ 0 := fun h0 => hl (List.length_eq_zero.mp h0)
        simp [typeWinShown, hne] at h
    · intro h
      subst h
      simp [typeWinShown]

/-- Counterexample to C5 as stated: with exactly one completed trade the
Sharpe ratio is undefined, and the rendered cell is the unmarked `nan`, not a
distinct `"N/A"` marker. -/
theorem c5_counterexample :
    (metricsOf id [sampleTrade]).map Metrics.sharpe = some Shown.nan ∧
    Shown.nan ≠ Shown.na := by
  constructor
  · simp [metricsOf, sharpeShown, pnlPcts]
  · simp

/-- Witness for C5 (amended): a one-element `PnL %` column renders the Sharpe
cell as the unmarked `nan`. -/
theorem c5_metrics_display_witness : sharpeShown id [30] = Shown.nan :=
  (c5_metrics_display id [] [30]).2.1.mpr (Or.inl (by norm_num))

theorem DInv.mono {s : BtState} {d dd : Date} (h : DInv s d) (hd : d ≤ dd) :
    DInv s dd :=
  ⟨h.flat, h.held, h.ordered,
    fun t ht => lt_of_lt_of_le (h.entriesLt t ht) hd, h.exitsOk⟩

theorem DInv.withPosSeries {s : BtState} {d : Date} (h : DInv s d) (X : List Int) :
    DInv { s with posSeries := X } d :=
  ⟨h.flat, h.held, h.ordered, h.entriesLt, h.exitsOk⟩

theorem dinv_init (d : Date) : DInv initState d := by
  refine ⟨?_, ?_, ?_, ?_, ?_⟩ <;> simp [initState]

theorem dinv_step_entry (entryT exitT : ℚ) (s : BtState) (d : Date) (z : ℚ)
    (h : DInv s d) (hp0 : s.pos = 0) (ty : TType) (p : Int) (hpne : p ≠ 0) :
    DInv { pos := p, entryZ := some z, entryDate := some d,
           trades := s.trades ++ [newTrade d ty z],
           posSeries := s.posSeries ++ [p] } (d + 1) := by
  refine ⟨?_, ?_, ?_, ?_, ?_⟩
  · intro h0
    exact absurd h0 hpne
  · intro _
    exact ⟨s.trades, newTrade d ty z, rfl, rfl, h.flat hp0⟩
  · refine List.pairwise_append.mpr ⟨h.ordered, by simp, ?_⟩
    intro a ha b hb
    rcases List.mem_singleton.mp hb with rfl
    simpa [newTrade] using h.entriesLt a ha
  · intro t ht
    rcases List.mem_append.mp ht with ht1 | ht2
    · exact lt_trans (h.entriesLt t ht1) (lt_add_one d)
    · rcases List.mem_singleton.mp ht2 with rfl
      simpa [newTrade] using lt_add_one d
  · intro t ht x hx
    rcases List.mem_append.mp ht with ht1 | ht2
    · exact h.exitsOk t ht1 x hx
    · rcases List.mem_singleton.mp ht2 with rfl
      simp [newTrade] at hx

theorem dinv_step_exit (s : BtState) (d : Date) (z : ℚ) (hp : ℚ)
    (h : DInv s d) (hp0 : s.pos ≠ 0) (ts : List Trade) (t : Trade)
    (htr : s.trades = ts ++ [t]) (hto : t.exitDate = none)
    (hcl : ∀ u ∈ ts, u.exitDate.isSome) :
    DInv { pos := 0, entryZ := none, entryDate := none,
           trades := ts ++ [closedWith t d z (d - s.entryDate.getD 0) hp],
           posSeries := s.posSeries ++ [s.pos] } (d + 1) := by
  have htmem : t ∈ s.trades := by rw [htr]; simp
  have hordered : List.Pairwise (fun a b => a.entryDate < b.entryDate) (ts ++ [t]) := by
    rw [← htr]; exact h.ordered
  rcases List.pairwise_append.mp hordered with ⟨hpw1, _, hpw3⟩
  refine ⟨?_, ?_, ?_, ?_, ?_⟩
  · intro _ u hu
    rcases List.mem_append.mp hu with hu1 | hu2
    · exact hcl u hu1
    · rcases List.mem_singleton.mp hu2 with rfl
      simp [closedWith]
  · intro hne
    exact absurd rfl hne
  · refine List.pairwise_append.mpr ⟨hpw1, by simp, ?_⟩
    intro a ha b hb
    rcases List.mem_singleton.mp hb with rfl
    simpa [closedWith] using hpw3 a ha t (by simp)
  · intro u hu
    rcases List.mem_append.mp hu with hu1 | hu2
    · have hmem : u ∈ s.trades := by rw [htr]; exact List.mem_append.mpr (Or.inl hu1)
      exact lt_trans (h.entriesLt u hmem) (lt_add_one d)
    · rcases List.mem_singleton.mp hu2 with rfl
      simpa [closedWith] using lt_trans (h.entriesLt t htmem) (lt_add_one d)
  · intro u hu x hx
    rcases List.mem_append.mp hu with hu1 | hu2
    · have hmem : u ∈ s.trades := by rw [htr]; exact List.mem_append.mpr (Or.inl hu1)
      exact h.exitsOk u hmem x hx
    · rcases List.mem_singleton.mp hu2 with rfl
      simp [closedWith] at hx ⊢
      rw [← hx]
      exact h.entriesLt t htmem

theorem dinv_step (entryT exitT : ℚ) (s : BtState) (d : Date) (oz : Option ℚ)
    (h : DInv s d) : DInv (step entryT exitT s (d, oz)) (d + 1) := by
  have hd1 : d ≤ d + 1 := le_of_lt (lt_add_one d)
  by_cases hp0 : s.pos = 0
  · cases oz with
    | none =>
        have hstep : step entryT exitT s (d, none) =
            { s with posSeries := s.posSeries ++ [0] } := by simp [step, hp0]
        rw [hstep]
        exact (h.mono hd1).withPosSeries _
    | some z =>
        by_cases h1 : entryT < z
        · have hstep : step entryT exitT s (d, some z) =
              { pos := -1, entryZ := some z, entryDate := some d,
                trades := s.trades ++ [newTrade d .shortRatio z],
                posSeries := s.posSeries ++ [-1] } := by simp [step, hp0, h1]
          rw [hstep]
          exact dinv_step_entry entryT exitT s d z h hp0 .shortRatio (-1) (by decide)
        · by_cases h2 : z < -entryT
          · have hstep : step entryT exitT s (d, some z) =
                { pos := 1, entryZ := some z, entryDate := some d,
                  trades := s.trades ++ [newTrade d .longRatio z],
                  posSeries := s.posSeries ++ [1] } := by simp [step, hp0, h1, h2]
            rw [hstep]
            exact dinv_step_entry entryT exitT s d z h hp0 .longRatio 1 (by decide)
          · have hstep : step entryT exitT s (d, some z) =
                { s with posSeries := s.posSeries ++ [0] } := by
              simp [step, hp0, h1, h2]
            rw [hstep]
            exact (h.mono hd1).withPosSeries _
  · cases oz with
    | none =>
        have hstep : step entryT exitT s (d, none) =
            { s with posSeries := s.posSeries ++ [s.pos] } := by simp [step, hp0]
        rw [hstep]
        exact (h.mono hd1).withPosSeries _
    | some z =>
        by_cases hc : (s.pos = 1 ∧ -exitT ≤ z) ∨ (s.pos = -1 ∧ z ≤ exitT)
        · obtain ⟨ts, t, htr, hto, hcl⟩ := h.held hp0
          have hstep : step entryT exitT s (d, some z) =
              { pos := 0, entryZ := none, entryDate := none,
                trades := ts ++ [closedWith t d z (d - s.entryDate.getD 0)
                  ((s.entryZ.getD 0 - z) * (s.pos : ℚ))],
                posSeries := s.posSeries ++ [s.pos] } := by
            simp [step, hp0, hc, htr, closeLast_concat _ _ _ _ _ _ hto]
          rw [hstep]
          exact dinv_step_exit s d z _ h hp0 ts t htr hto hcl
        · have hstep : step entryT exitT s (d, some z) =
              { s with posSeries := s.posSeries ++ [s.pos] } := by
            simp [step, hp0, hc]
          rw [hstep]
          exact (h.mono hd1).withPosSeries _

theorem DInv.open_le_one {s : BtState} {d : Date} (h : DInv s d) :
    (openTrades s.trades).length ≤ 1 := by
  by_cases hp0 : s.pos = 0
  · have hall := h.flat hp0
    have hnil : openTrades s.trades = [] := by
      rw [openTrades, List.filter_eq_nil_iff]
      intro t ht
      rcases Option.isSome_iff_exists.mp (hall t ht) with ⟨x, hx⟩
      simp [hx]
    simp [hnil]
  · obtain ⟨ts, t, htr, hto, hcl⟩ := h.held hp0
    rw [openTrades, htr, List.filter_append]
    have h1 : ts.filter (fun u => u.exitDate.isNone) = [] := by
      rw [List.filter_eq_nil_iff]
      intro u hu
      rcases Option.isSome_iff_exists.mp (hcl u hu) with ⟨x, hx⟩
      simp [hx]
    simp [h1, hto]

theorem dinv_foldl (entryT exitT : ℚ) :
    ∀ (rows : List (Date × Option ℚ)) (s : BtState) (d : Date), DInv s d →
      (∀ r ∈ rows, d ≤ r.1) → List.Pairwise (· < ·) (rows.map Prod.fst) →
      ∃ dd, DInv (rows.foldl (step entryT exitT) s) dd := by
  intro rows
  induction rows with
  | nil => intro s d h _ _; exact ⟨d, h⟩
  | cons r rest ih =>
      intro s d h hbound hpw
      rcases r with ⟨d0, oz⟩
      have hd0 : d ≤ d0 := hbound (d0, oz) (List.mem_cons_self _ _)
      have hstep := dinv_step entryT exitT s d0 oz (h.mono hd0)
      rw [List.map_cons] at hpw
      rcases List.pairwise_cons.mp hpw with ⟨hhead, htail⟩
      apply ih (step entryT exitT s (d0, oz)) (d0 + 1) hstep
      · intro rr hrr
        exact Int.add_one_le_iff.mpr (hhead rr.1 (List.mem_map_of_mem _ hrr))
      · exact htail

theorem dinv_run (entryT exitT : ℚ) (rows : List (Date × Option ℚ))
    (hpw : List.Pairwise (· < ·) (rows.map Prod.fst)) :
    ∃ dd, DInv (runSignals entryT exitT rows) dd := by
  rw [runSignals]
  cases rows with
  | nil => exact ⟨0, dinv_init 0⟩
  | cons r rest =>
      apply dinv_foldl entryT exitT (r :: rest) initState r.1 (dinv_init r.1)
      · intro rr hrr
        rcases List.mem_cons.mp hrr with rfl | hrr2
        · exact le_refl _
        · have hpw2 := hpw
          rw [List.map_cons] at hpw2
          rcases List.pairwise_cons.mp hpw2 with ⟨hhead, _⟩
          exact le_of_lt (hhead rr.1 (List.mem_map_of_mem _ hrr2))
      · exact hpw

/-- C7: with strictly increasing dates, at most one trade is open after every
prefix of the run; the completed trades in the ledger are strictly ordered by
entry date; and every completed trade exits strictly after it enters. -/
theorem c7_trade_invariants (entryT exitT : ℚ) (rows : List (Date × Option ℚ))
    (hsort : List.Chain' (· < ·) (rows.map Prod.fst)) :
    (∀ k, (openTrades (runSignals entryT exitT (rows.take k)).trades).length ≤ 1) ∧
    List.Pairwise (fun a b => a.entryDate < b.entryDate)
      (completedTrades (runSignals entryT exitT rows).trades) ∧
    ∀ t ∈ completedTrades (runSignals entryT exitT rows).trades,
      ∀ x, t.exitDate = some x → t.entryDate < x := by
  have hpw : List.Pairwise (· < ·) (rows.map Prod.fst) :=
    List.chain'_iff_pairwise.mp hsort
  obtain ⟨dd, hinv⟩ := dinv_run entryT exitT rows hpw
  refine ⟨?_, ?_, ?_⟩
  · intro k
    have hpwk : List.Pairwise (· < ·) ((rows.take k).map Prod.fst) := by
      rw [List.map_take]
      exact hpw.sublist (List.take_sublist _ _)
    obtain ⟨dk, hk⟩ := dinv_run entryT exitT (rows.take k) hpwk
    exact hk.open_le_one
  · exact hinv.ordered.sublist (List.filter_sublist _)
  · intro t ht x hx
    exact hinv.exitsOk t (List.mem_of_mem_filter ht) x hx

/-- Witness for C7: a concrete two-date run (entry then exit) has at most one
open trade after the full prefix. -/
theorem c7_trade_invariants_witness :
    (openTrades (runSignals (5/2) (3/2)
      ([((0 : Int), some (3 : ℚ)), (1, some 1)].take 2)).trades).length ≤ 1 :=
  (c7_trade_invariants (5/2) (3/2) [((0 : Int), some (3 : ℚ)), (1, some 1)]
    (by simp)).1 2

end PairBt
